import Mathlib

/-!
Shallow embedding of the line syntax highlighter of `docs/convert_to_docx.py`
(the compiled pattern list `_SH_PATTERNS`, `colorize_line`, `add_colored_runs`)
and of the save-retry loop at the end of the script, together with theorems
about the segmentation invariants the design document states.

Lines are modelled as `List Char`.  The character classes model the ASCII
fragment of the Python regex classes (`\w`, `\d`, `\s`, hex digits); the
non-breaking space U+00A0 is included in the whitespace class because both
`str.strip` and the regex class treat it as whitespace.  Each compiled regex
of `_SH_PATTERNS` is embedded as a matcher computing, at a given start
offset, the end offset of the match that the Python engine would produce
there; greedy quantifiers followed by a mandatory distinct character are
resolved to maximal runs, and the remaining backtracking (the optional CIDR
mask of the IPv4 pattern, the alternation retries of the keyword patterns,
and the shrinking star of the interface patterns) is implemented explicitly.
-/

namespace ConvertToDocx

/-- ASCII word character, the `\w` class of the patterns. -/
def isWordC (c : Char) : Bool := c.isAlphanum || c = '_'

/-- Whitespace, the `\s` class of the patterns and the set stripped by `str.strip`. -/
def isSpaceC (c : Char) : Bool :=
  c = ' ' || c = '\t' || c = '\n' || c = '\r' || c = '\x0b' || c = '\x0c' || c = '\u00A0'

/-- Hexadecimal digit, the class `[0-9a-fA-F]` of the MAC patterns. -/
def isHexC (c : Char) : Bool :=
  c.isDigit || ('a' ≤ c && c ≤ 'f') || ('A' ≤ c && c ≤ 'F')

/-- The character at offset `i` is a word character (false past the end). -/
def isWordAt (l : List Char) (i : Nat) : Bool :=
  match l[i]? with
  | some c => isWordC c
  | none => false

/-- The character at offset `i` satisfies `p` (false past the end). -/
def charAt (l : List Char) (i : Nat) (p : Char → Bool) : Bool :=
  match l[i]? with
  | some c => p c
  | none => false

/-- Whether the character before offset `i` is a word character. -/
def prevWord (l : List Char) (i : Nat) : Bool :=
  match i with
  | 0 => false
  | j + 1 => isWordAt l j

/-- The word boundary `\b` at offset `i`: exactly one side is a word character. -/
def bdry (l : List Char) (i : Nat) : Bool :=
  prevWord l i != isWordAt l i

/-- Length of the maximal run of characters satisfying `p` starting at offset `i`. -/
def runLen (p : Char → Bool) (l : List Char) (i : Nat) : Nat :=
  ((l.drop i).takeWhile p).length

/-- The literal `w` occurs at offset `i`. -/
def litAt (l : List Char) (i : Nat) : List Char → Bool
  | [] => true
  | c :: cs => l[i]? = some c && litAt l (i + 1) cs

/-- The literal `w` occurs at offset `i` up to ASCII case (the `re.IGNORECASE` flag). -/
def litAtCI (l : List Char) (i : Nat) : List Char → Bool
  | [] => true
  | c :: cs =>
    (match l[i]? with
     | some d => d.toLower = c.toLower
     | none => false) && litAtCI l (i + 1) cs

/-- Python slice `l[a:b]`. -/
def slice (l : List Char) (a b : Nat) : List Char := (l.drop a).take (b - a)

/-- RGB color triple, the `RGBColor` values of the script. -/
structure RGB where
  r : Nat
  g : Nat
  b : Nat
  deriving DecidableEq, Repr

def CLR_DEFAULT : RGB := ⟨0x1E, 0x1E, 0x1E⟩
def CLR_IP      : RGB := ⟨0x00, 0x6B, 0xB3⟩
def CLR_MAC     : RGB := ⟨0xBF, 0x63, 0x00⟩
def CLR_GREEN   : RGB := ⟨0x00, 0x6B, 0x44⟩
def CLR_RED     : RGB := ⟨0xCC, 0x20, 0x00⟩
def CLR_PROMPT  : RGB := ⟨0x00, 0x80, 0x5A⟩
def CLR_IFACE   : RGB := ⟨0xAA, 0x55, 0x00⟩
def CLR_KEYWORD : RGB := ⟨0x00, 0x52, 0xCC⟩
def CLR_VNI     : RGB := ⟨0x6C, 0x3F, 0xB5⟩
def CLR_COMMENT : RGB := ⟨0x6B, 0x77, 0x8C⟩

/-- One output segment of `colorize_line`: a `(text, color, bold)` triple. -/
structure Seg where
  text : List Char
  color : RGB
  bold : Bool
  deriving DecidableEq, Repr

/-- One candidate span collected from a pattern match: `(start, end, color, bold)`. -/
structure Cand where
  s : Nat
  e : Nat
  color : RGB
  bold : Bool
  deriving DecidableEq, Repr

-- ── Pattern 1: comments, `^(\s*#.*)$` ──

/-- Matcher for the anchored comment pattern.  The leading `\s*` is forced to the
maximal whitespace run because it must be followed by `#`; the trailing `$`
accepts the end of the line or the position before a final newline.  Returns
the span of group 1, which coincides with the whole match. -/
def matchComment (l : List Char) : Option (Nat × Nat) :=
  let w := runLen isSpaceC l 0
  let n := l.length
  if l[w]? = some '#' then
    if (l.drop (w + 1)).all (fun c => !(c = '\n')) then some (0, n)
    else if l[n - 1]? = some '\n'
            && ((l.drop (w + 1)).take (n - 1 - (w + 1))).all (fun c => !(c = '\n')) then
      some (0, n - 1)
    else none
  else none

-- ── Pattern 2: prompts ──

/-- First prompt alternative, `sw\d+#`.  The greedy `\d+` is forced to the
maximal digit run because it must be followed by `#`. -/
def altSw (l : List Char) (i : Nat) : Option Nat :=
  if litAt l i ("sw".toList) then
    let d := runLen Char.isDigit l (i + 2)
    if 1 ≤ d && l[i + 2 + d]? = some '#' then some (i + 3 + d) else none
  else none

/-- Second prompt alternative, `cumulus[@$][\w:~]*[$#>]?`.  The star is maximal
and the optional class consumes one more character when present: no character
of `[$#>]` belongs to `[\w:~]`, so no backtracking arises. -/
def altCumulus (l : List Char) (i : Nat) : Option Nat :=
  if litAt l i ("cumulus".toList) then
    match l[i + 7]? with
    | some c =>
      if c = '@' || c = '$' then
        let r := runLen (fun c => isWordC c || c = ':' || c = '~') l (i + 8)
        let j := i + 8 + r
        match l[j]? with
        | some d => if d = '$' || d = '#' || d = '>' then some (j + 1) else some j
        | none => some j
      else none
    | none => none
  else none

/-- Third prompt alternative, `admin@[\w\-]+[-cli>]*>?`.  After the maximal
`[\w\-]+` run the next character is outside `\w` and not a hyphen, so the
second star can only consume a run of `>`, after which the optional `>?`
necessarily matches empty. -/
def altAdmin (l : List Char) (i : Nat) : Option Nat :=
  if litAt l i ("admin@".toList) then
    let r := runLen (fun c => isWordC c || c = '-') l (i + 6)
    if 1 ≤ r then
      let j := i + 6 + r
      let g := runLen (fun c => c = '-' || c = 'c' || c = 'l' || c = 'i' || c = '>') l j
      some (j + g)
    else none
  else none

/-- The prompt pattern: the three alternatives in source order, then `\s?`.
Group 1 encloses everything, so the group span is the match span. -/
def matchPromptAt (l : List Char) (i : Nat) : Option Nat :=
  let core :=
    match altSw l i with
    | some j => some j
    | none =>
      match altCumulus l i with
      | some j => some j
      | none => altAdmin l i
  match core with
  | some j =>
    match l[j]? with
    | some c => if isSpaceC c then some (j + 1) else some j
    | none => some j
  | none => none

-- ── Pattern 3: IPv4 with optional mask ──

/-- One octet of the IPv4 pattern: the digit run at `i` must have length 1 to 3 and is
taken whole, because the pattern continues with a non-digit. -/
def octetAt (l : List Char) (i : Nat) : Option Nat :=
  let r := runLen Char.isDigit l i
  if 1 ≤ r && r ≤ 3 then some (i + r) else none

/-- The IPv4 pattern (pattern 3 of the list).
The optional mask backtracks from two digits to one and then to absence, in
which case the trailing boundary holds against the slash itself. -/
def matchIPv4At (l : List Char) (i : Nat) : Option Nat :=
  if bdry l i then
    match octetAt l i with
    | none => none
    | some a =>
      if l[a]? = some '.' then
        match octetAt l (a + 1) with
        | none => none
        | some b =>
          if l[b]? = some '.' then
            match octetAt l (b + 1) with
            | none => none
            | some c =>
              if l[c]? = some '.' then
                match octetAt l (c + 1) with
                | none => none
                | some d =>
                  if l[d]? = some '/' then
                    let m := runLen Char.isDigit l (d + 1)
                    if 2 ≤ m && !isWordAt l (d + 3) then some (d + 3)
                    else if 1 ≤ m && !isWordAt l (d + 2) then some (d + 2)
                    else some d
                  else if !isWordAt l d then some d
                  else none
              else none
          else none
      else none
  else none

-- ── Patterns 4 and 5: MAC addresses ──

/-- A colon followed by two hex digits, one repetition of the colon group. -/
def colonHex2 (l : List Char) (i : Nat) : Bool :=
  l[i]? = some ':' && charAt l (i + 1) isHexC && charAt l (i + 2) isHexC

/-- The colon MAC pattern (pattern 4 of the list). -/
def matchMacColonAt (l : List Char) (i : Nat) : Option Nat :=
  if bdry l i && charAt l i isHexC && charAt l (i + 1) isHexC
      && colonHex2 l (i + 2) && colonHex2 l (i + 5) && colonHex2 l (i + 8)
      && colonHex2 l (i + 11) && colonHex2 l (i + 14)
      && !isWordAt l (i + 17) then
    some (i + 17)
  else none

/-- Four hex digits starting at offset `i`. -/
def hex4At (l : List Char) (i : Nat) : Bool :=
  charAt l i isHexC && charAt l (i + 1) isHexC
    && charAt l (i + 2) isHexC && charAt l (i + 3) isHexC

/-- The dot MAC pattern (pattern 5 of the list). -/
def matchMacDotAt (l : List Char) (i : Nat) : Option Nat :=
  if bdry l i && hex4At l i && l[i + 4]? = some '.' && hex4At l (i + 5)
      && l[i + 9]? = some '.' && hex4At l (i + 10)
      && !isWordAt l (i + 14) then
    some (i + 14)
  else none

-- ── Word alternation helper for the keyword style patterns ──

/-- Try literal alternatives in order at offset `i`; an alternative succeeds
when its literal occurs there and the trailing `\b` holds after it (every
alternative ends in a word character, so the boundary is the absence of a
word character).  `ci` selects case-insensitive comparison. -/
def kwAlt (ci : Bool) (l : List Char) (i : Nat) : List (List Char) → Option Nat
  | [] => none
  | w :: ws =>
    if (if ci then litAtCI l i w else litAt l i w) && !isWordAt l (i + w.length) then
      some (i + w.length)
    else kwAlt ci l i ws

-- ── Patterns 6, 7, 8: status words and the VNI allow-list ──

/-- The positive status pattern `\b(UP|FULL|Established|estab|FIXED|forwarding)\b`
with `re.IGNORECASE`. -/
def matchPosAt (l : List Char) (i : Nat) : Option Nat :=
  if bdry l i then
    kwAlt true l i
      [("UP".toList), ("FULL".toList), ("Established".toList),
       ("estab".toList), ("FIXED".toList), ("forwarding".toList)]
  else none

/-- The negative status pattern `\b(DOWN|FAIL|ERROR|DROPPED|failed|blocked)\b`
with `re.IGNORECASE`. -/
def matchNegAt (l : List Char) (i : Nat) : Option Nat :=
  if bdry l i then
    kwAlt true l i
      [("DOWN".toList), ("FAIL".toList), ("ERROR".toList),
       ("DROPPED".toList), ("failed".toList), ("blocked".toList)]
  else none

/-- The VNI pattern `\b(401151|401152|401153|50101)\b`: a fixed literal
allow-list, case-sensitive. -/
def matchVniAt (l : List Char) (i : Nat) : Option Nat :=
  if bdry l i then
    kwAlt false l i
      [("401151".toList), ("401152".toList), ("401153".toList), ("50101".toList)]
  else none

-- ── Patterns 9 and 10: interface names ──

/-- Greedy star of the interface class followed by a word boundary: the star
first takes its maximal run of `k` characters and gives characters back one
at a time until the boundary holds at the end position. -/
def shrinkStar (l : List Char) (base : Nat) : Nat → Option Nat
  | 0 => if bdry l base then some base else none
  | k + 1 => if bdry l (base + (k + 1)) then some (base + (k + 1)) else shrinkStar l base k

/-- The tail of both interface patterns after the name alternatives: one
digit, then the greedy class run with the trailing boundary. -/
def ifaceTail (l : List Char) (p : Nat) : Option Nat :=
  if charAt l p Char.isDigit then
    let r := runLen (fun c => isWordC c || c = '/' || c = '.' || c = '-') l (p + 1)
    shrinkStar l (p + 1) r
  else none

/-- Try the interface name alternatives in order at offset `i`: when a name
literal occurs but its tail fails, the engine backtracks to the next
alternative. -/
def ifaceAlts (l : List Char) (i : Nat) : List (List Char) → Option Nat
  | [] => none
  | w :: ws =>
    if litAt l i w then
      match ifaceTail l (i + w.length) with
      | some e => some e
      | none => ifaceAlts l i ws
    else ifaceAlts l i ws

/-- The interface pattern (pattern 9 of the list).  The greedy optional of
the first alternative expands it to the long form tried before the bare
prefix. -/
def matchIfaceAt (l : List Char) (i : Nat) : Option Nat :=
  if bdry l i then
    ifaceAlts l i
      [("GigabitEthernet".toList), ("Gi".toList), ("GigabitEthernet".toList),
       ("Te".toList), ("nve".toList), ("Loopback".toList), ("Vlan".toList),
       ("swp".toList), ("vxlan".toList), ("br_default".toList), ("vlan".toList)]
  else none

/-- One Versa interface alternative: the name literal, a hyphen, then the
shared tail. -/
def versaAlts (l : List Char) (i : Nat) : List (List Char) → Option Nat
  | [] => none
  | w :: ws =>
    if litAt l i w && l[i + w.length]? = some '-' then
      match ifaceTail l (i + w.length + 1) with
      | some e => some e
      | none => versaAlts l i ws
    else versaAlts l i ws

/-- The Versa interface pattern (pattern 10 of the list). -/
def matchVersaAt (l : List Char) (i : Nat) : Option Nat :=
  if bdry l i then
    versaAlts l i [("tvi".toList), ("vni".toList), ("dtvi".toList)]
  else none

-- ── Patterns 11 and 12: anchored configuration keywords ──

/-- A compound keyword alternative: a head literal, mandatory whitespace
forced to its maximal run, then tail alternatives each closed by the
trailing boundary. -/
def compound2 (l : List Char) (i : Nat) (head : List Char) (tails : List (List Char)) : Option Nat :=
  if litAt l i head then
    let s := runLen isSpaceC l (i + head.length)
    if 1 ≤ s then kwAlt false l (i + head.length + s) tails else none
  else none

/-- The config keyword pattern (pattern 11 of the list).  The match is
anchored at offset 0; the leading whitespace is forced maximal because every
alternative starts with a letter.  Returns the span of capturing group 1,
which starts after the whitespace, while the match itself starts at 0. -/
def matchKw1 (l : List Char) : Option (Nat × Nat) :=
  let w := runLen isSpaceC l 0
  match compound2 l w ("router".toList) [("ospf".toList), ("bgp".toList)] with
  | some e => some (w, e)
  | none =>
  match kwAlt false l w
      [("interface".toList), ("neighbor".toList), ("address-family".toList), ("l2vpn".toList)] with
  | some e => some (w, e)
  | none =>
  match compound2 l w ("vlan".toList) [("configuration".toList)] with
  | some e => some (w, e)
  | none =>
  match kwAlt false l w [("member".toList)] with
  | some e => some (w, e)
  | none =>
  match compound2 l w ("nv".toList) [("set".toList)] with
  | some e => some (w, e)
  | none => none

/-- The Versa config keyword pattern (pattern 12 of the list), anchored like
pattern 11. -/
def matchKw2 (l : List Char) : Option (Nat × Nat) :=
  let w := runLen isSpaceC l 0
  match compound2 l w ("set".toList) [("routing-instances".toList)] with
  | some e => some (w, e)
  | none =>
  match kwAlt false l w
      [("protocols".toList), ("bridge-domains".toList), ("bridge-options".toList),
       ("policy-options".toList)] with
  | some e => some (w, e)
  | none => none

-- ── The finditer scan ──

/-- One step of the scan underlying `pattern.finditer(line)`: try the matcher
at every offset from left to right; after a match the scan resumes at its
end.  The fuel argument strictly exceeds the number of remaining offsets. -/
def finditerGo (m : List Char → Nat → Option Nat) (l : List Char) : Nat → Nat → List (Nat × Nat)
  | 0, _ => []
  | fuel + 1, pos =>
    if pos ≤ l.length then
      match m l pos with
      | some e => (pos, e) :: finditerGo m l fuel (max e (pos + 1))
      | none => finditerGo m l fuel (pos + 1)
    else []

/-- All matches of an unanchored pattern over the line, in scan order. -/
def finditer (m : List Char → Nat → Option Nat) (l : List Char) : List (Nat × Nat) :=
  finditerGo m l (l.length + 1) 0

-- ── Candidate collection, sorting, overlap removal, segment build ──

/-- Attach the color class and emphasis flag of a pattern to its spans. -/
def spansToCands (sp : List (Nat × Nat)) (c : RGB) (b : Bool) : List Cand :=
  sp.map (fun p => ⟨p.1, p.2, c, b⟩)

/-- The zero-or-one matches of an anchored pattern as a span list. -/
def optToList : Option (Nat × Nat) → List (Nat × Nat)
  | none => []
  | some p => [p]

/-- The candidate list built by the matches loop of `colorize_line`: every
pattern of `_SH_PATTERNS` in registration order, each match contributing the
span of its capturing group (group 1 participates in every match of every
pattern, so `m.lastindex` is always set). -/
def allMatches (l : List Char) : List Cand :=
  spansToCands (optToList (matchComment l)) CLR_COMMENT false
    ++ spansToCands (finditer matchPromptAt l) CLR_PROMPT true
    ++ spansToCands (finditer matchIPv4At l) CLR_IP false
    ++ spansToCands (finditer matchMacColonAt l) CLR_MAC false
    ++ spansToCands (finditer matchMacDotAt l) CLR_MAC false
    ++ spansToCands (finditer matchPosAt l) CLR_GREEN true
    ++ spansToCands (finditer matchNegAt l) CLR_RED true
    ++ spansToCands (finditer matchVniAt l) CLR_VNI false
    ++ spansToCands (finditer matchIfaceAt l) CLR_IFACE false
    ++ spansToCands (finditer matchVersaAt l) CLR_IFACE false
    ++ spansToCands (optToList (matchKw1 l)) CLR_KEYWORD true
    ++ spansToCands (optToList (matchKw2 l)) CLR_KEYWORD true

/-- Insert a candidate before the first element with a strictly larger start,
after all elements with a smaller or equal start. -/
def insertCand (x : Cand) : List Cand → List Cand
  | [] => [x]
  | y :: ys => if x.s ≤ y.s then x :: y :: ys else y :: insertCand x ys

/-- The stable sort by start offset, `matches.sort(key=lambda x: x[0])`. -/
def sortCands : List Cand → List Cand
  | [] => []
  | x :: xs => insertCand x (sortCands xs)

/-- The overlap removal scan: keep a candidate only when its start is at or
after the end of the last kept candidate. -/
def filterOverlaps : List Cand → Nat → List Cand
  | [], _ => []
  | c :: cs, lastEnd =>
    if c.s ≥ lastEnd then c :: filterOverlaps cs c.e
    else filterOverlaps cs lastEnd

/-- The segment build loop: default-color gaps between kept spans, the kept
spans with their own color, and the default-color remainder of the line. -/
def buildSegs (l : List Char) : List Cand → Nat → List Seg
  | [], pos =>
    if pos < l.length then [⟨slice l pos l.length, CLR_DEFAULT, false⟩] else []
  | c :: cs, pos =>
    if c.s > pos then
      ⟨slice l pos c.s, CLR_DEFAULT, false⟩ :: ⟨slice l c.s c.e, c.color, c.bold⟩
        :: buildSegs l cs c.e
    else
      ⟨slice l c.s c.e, c.color, c.bold⟩ :: buildSegs l cs c.e

/-- Python `str.strip`. -/
def pyStrip (l : List Char) : List Char :=
  ((l.dropWhile isSpaceC).reverse.dropWhile isSpaceC).reverse

/-- Whether a list starts with the given character. -/
def startsWithChar (l : List Char) (c : Char) : Bool :=
  match l with
  | [] => false
  | d :: _ => d = c

/-- The full-line comment guard of `colorize_line`. -/
def isCommentLine (l : List Char) : Bool :=
  startsWithChar (pyStrip l) '#' || startsWithChar (pyStrip l) '!'

/-- The function `colorize_line` of the script. -/
def colorize_line (l : List Char) : List Seg :=
  if isCommentLine l then [⟨l, CLR_COMMENT, false⟩]
  else
    let filtered := filterOverlaps (sortCands (allMatches l)) 0
    let segments := buildSegs l filtered 0
    if segments.isEmpty then [⟨l, CLR_DEFAULT, false⟩] else segments

/-- The substituted display line of `add_colored_runs`: a single non-breaking
space replaces a line that is empty or whitespace-only. -/
def display_line (l : List Char) : List Char :=
  if (pyStrip l).isEmpty then ['\u00A0'] else l

/-- The segment list that `add_colored_runs` renders for a line: the
substitution, then classification. -/
def add_colored_runs_segs (l : List Char) : List Seg :=
  colorize_line (display_line l)

-- ── The save step ──

/-- Outcome of one `doc.save(path)` call, the only external effect of the
save loop: success, the anticipated `PermissionError`, or any other
exception. -/
inductive SaveOutcome where
  | ok : SaveOutcome
  | permError : SaveOutcome
  | otherError : SaveOutcome
  deriving DecidableEq, Repr

/-- How the save loop ends: a successful save breaking the loop, fall
through with the last tried path still bound to `output_path`, or an
uncaught exception raised while saving some path. -/
inductive RunResult where
  | saved : String → RunResult
  | fellThrough : String → RunResult
  | aborted : String → RunResult
  deriving DecidableEq, Repr

/-- The candidate file names, in order: the fixed suffix list applied to the
base name. -/
def candidatePaths (base : String) : List String :=
  ["_v3", "_v3a", "_v3b"].map (fun suffix => base ++ suffix ++ ".docx")

/-- The retry loop over candidate paths: `PermissionError` is caught and the
next candidate is tried, a successful save breaks, and any other exception
propagates. -/
def saveLoop (save : String → SaveOutcome) (last : String) : List String → RunResult
  | [] => .fellThrough last
  | p :: rest =>
    match save p with
    | .ok => .saved p
    | .permError => saveLoop save p rest
    | .otherError => .aborted p

/-- The save step of the script. -/
def runSaveStep (save : String → SaveOutcome) (base : String) : RunResult :=
  saveLoop save "" (candidatePaths base)

/-- The paths actually passed to `doc.save`, in order. -/
def saveAttempts (save : String → SaveOutcome) : List String → List String
  | [] => []
  | p :: rest =>
    match save p with
    | .ok => [p]
    | .permError => p :: saveAttempts save rest
    | .otherError => [p]

/-- The path printed by the final success message, when execution reaches
it: the saved path, or after exhaustion the last candidate, and nothing when
an uncaught exception aborted the run. -/
def printedPath : RunResult → Option String
  | .saved p => some p
  | .fellThrough p => some p
  | .aborted _ => none

-- ── Bound lemmas for the scanning primitives ──

lemma getElem?_lt {l : List Char} {i : Nat} {c : Char} (h : l[i]? = some c) :
    i < l.length :=
  (List.getElem?_eq_some.mp h).1

lemma charAt_lt {l : List Char} {i : Nat} {p : Char → Bool} (h : charAt l i p = true) :
    i < l.length := by
  unfold charAt at h
  cases hc : l[i]? with
  | none => rw [hc] at h; simp at h
  | some c => exact getElem?_lt hc

lemma isWordAt_lt {l : List Char} {i : Nat} (h : isWordAt l i = true) : i < l.length := by
  unfold isWordAt at h
  cases hc : l[i]? with
  | none => rw [hc] at h; simp at h
  | some c => exact getElem?_lt hc

lemma runLen_le (p : Char → Bool) (l : List Char) (i : Nat) (h : i ≤ l.length) :
    i + runLen p l i ≤ l.length := by
  unfold runLen
  have h1 : ((l.drop i).takeWhile p).length ≤ (l.drop i).length :=
    (List.takeWhile_prefix p).length_le
  rw [List.length_drop] at h1
  omega

lemma runLen_pos_lt (p : Char → Bool) {l : List Char} {i : Nat}
    (h : 0 < runLen p l i) : i < l.length := by
  unfold runLen at h
  by_contra hc
  rw [List.drop_eq_nil_of_le (by omega)] at h
  simp at h

lemma litAt_le {l : List Char} : ∀ {w : List Char} {i : Nat},
    litAt l i w = true → w = [] ∨ i + w.length ≤ l.length := by
  intro w
  induction w with
  | nil => intro i _; exact Or.inl rfl
  | cons c cs ih =>
    intro i h
    right
    simp only [litAt, Bool.and_eq_true, decide_eq_true_eq] at h
    obtain ⟨h1, h2⟩ := h
    have hi := getElem?_lt h1
    rcases ih h2 with hnil | hle
    · subst hnil; simpa using hi
    · simp only [List.length_cons]; omega

lemma litAtCI_le {l : List Char} : ∀ {w : List Char} {i : Nat},
    litAtCI l i w = true → w = [] ∨ i + w.length ≤ l.length := by
  intro w
  induction w with
  | nil => intro i _; exact Or.inl rfl
  | cons c cs ih =>
    intro i h
    right
    simp only [litAtCI, Bool.and_eq_true] at h
    obtain ⟨h1, h2⟩ := h
    have hi : i < l.length := by
      cases hc : l[i]? with
      | none => rw [hc] at h1; simp at h1
      | some d => exact getElem?_lt hc
    rcases ih h2 with hnil | hle
    · subst hnil; simpa using hi
    · simp only [List.length_cons]; omega

lemma kwAlt_wf (ci : Bool) (l : List Char) (i : Nat) :
    ∀ (ws : List (List Char)), (∀ w ∈ ws, w ≠ []) →
      ∀ {e : Nat}, kwAlt ci l i ws = some e → i < e ∧ e ≤ l.length := by
  intro ws
  induction ws with
  | nil => intro _ e h; simp [kwAlt] at h
  | cons w ws ih =>
    intro hne e h
    have hw : w ≠ [] := hne w (List.mem_cons_self ..)
    have hwpos : 0 < w.length := List.length_pos.mpr hw
    have htail : kwAlt ci l i ws = some e → i < e ∧ e ≤ l.length :=
      fun h2 => ih (fun v hv => hne v (List.mem_cons_of_mem _ hv)) h2
    unfold kwAlt at h
    split at h <;> split at h
    · injection h with h
      subst h
      rename_i hcond
      rw [Bool.and_eq_true] at hcond
      obtain ⟨hlit, _⟩ := hcond
      rcases litAtCI_le hlit with h0 | h0
      · exact absurd h0 hw
      · exact ⟨by omega, h0⟩
    · exact htail h
    · injection h with h
      subst h
      rename_i hcond
      rw [Bool.and_eq_true] at hcond
      obtain ⟨hlit, _⟩ := hcond
      rcases litAt_le hlit with h0 | h0
      · exact absurd h0 hw
      · exact ⟨by omega, h0⟩
    · exact htail h

-- ── Well-formedness of each pattern matcher: a match at offset `i` ends
-- strictly after `i` and within the line ──

lemma altSw_wf {l : List Char} {i e : Nat} (h : altSw l i = some e) :
    i < e ∧ e ≤ l.length := by
  unfold altSw at h
  simp only [] at h
  split at h
  · split at h
    · injection h with h
      subst h
      rename_i hcond
      rw [Bool.and_eq_true] at hcond
      have := getElem?_lt (of_decide_eq_true hcond.2)
      omega
    · exact absurd h (by simp)
  · exact absurd h (by simp)

lemma altCumulus_wf {l : List Char} {i e : Nat} (h : altCumulus l i = some e) :
    i < e ∧ e ≤ l.length := by
  unfold altCumulus at h
  split at h
  case isTrue hlit =>
    rcases litAt_le hlit with h0 | h0
    · simp at h0
    have h7 : i + 7 ≤ l.length := by simpa using h0
    split at h
    case h_1 c hc =>
      have hlt7 := getElem?_lt hc
      split at h
      case isTrue =>
        have hr := runLen_le (fun c => isWordC c || c = ':' || c = '~') l (i + 8) (by omega)
        simp only [] at h
        split at h
        case h_1 d hd =>
          have hlt := getElem?_lt hd
          split at h <;> (injection h with h; subst h) <;> omega
        case h_2 => injection h with h; subst h; omega
      case isFalse => exact absurd h (by simp)
    case h_2 => exact absurd h (by simp)
  case isFalse => exact absurd h (by simp)

lemma altAdmin_wf {l : List Char} {i e : Nat} (h : altAdmin l i = some e) :
    i < e ∧ e ≤ l.length := by
  unfold altAdmin at h
  simp only [] at h
  split at h
  case isTrue hlit =>
    rcases litAt_le hlit with h0 | h0
    · simp at h0
    have h6 : i + 6 ≤ l.length := by simpa using h0
    split at h
    case isTrue hr1 =>
      injection h with h
      subst h
      have hrpos : 0 < runLen (fun c => isWordC c || c = '-') l (i + 6) := hr1
      have hr := runLen_le (fun c => isWordC c || c = '-') l (i + 6) h6
      have hg := runLen_le (fun c => c = '-' || c = 'c' || c = 'l' || c = 'i' || c = '>') l
        (i + 6 + runLen (fun c => isWordC c || c = '-') l (i + 6)) (by omega)
      omega
    case isFalse => exact absurd h (by simp)
  case isFalse => exact absurd h (by simp)

lemma matchPromptAt_wf {l : List Char} {i e : Nat} (h : matchPromptAt l i = some e) :
    i < e ∧ e ≤ l.length := by
  unfold matchPromptAt at h
  simp only [] at h
  split at h
  case h_1 j hj =>
    have hw : i < j ∧ j ≤ l.length := by
      split at hj
      case h_1 k hk => injection hj with hj; subst hj; exact altSw_wf hk
      case h_2 =>
        split at hj
        case h_1 k hk => injection hj with hj; subst hj; exact altCumulus_wf hk
        case h_2 => exact altAdmin_wf hj
    split at h
    case h_1 c hc =>
      have := getElem?_lt hc
      split at h <;> (injection h with h; subst h) <;> omega
    case h_2 => injection h with h; subst h; omega
  case h_2 => exact absurd h (by simp)

lemma octetAt_wf {l : List Char} {i e : Nat} (h : octetAt l i = some e) :
    i < e ∧ e ≤ l.length := by
  unfold octetAt at h
  simp only [] at h
  split at h
  case isTrue hcond =>
    injection h with h
    subst h
    rw [Bool.and_eq_true] at hcond
    have h1 : 1 ≤ runLen Char.isDigit l i := of_decide_eq_true hcond.1
    have hlt : i < l.length := runLen_pos_lt Char.isDigit (by omega)
    have := runLen_le Char.isDigit l i (by omega)
    omega
  case isFalse => exact absurd h (by simp)

lemma matchIPv4At_wf {l : List Char} {i e : Nat} (h : matchIPv4At l i = some e) :
    i < e ∧ e ≤ l.length := by
  unfold matchIPv4At at h
  split at h
  case isTrue =>
    split at h
    case h_1 => exact absurd h (by simp)
    case h_2 a ha =>
      have hwa := octetAt_wf ha
      split at h
      case isTrue hdot1 =>
        split at h
        case h_1 => exact absurd h (by simp)
        case h_2 b hb =>
          have hwb := octetAt_wf hb
          split at h
          case isTrue hdot2 =>
            split at h
            case h_1 => exact absurd h (by simp)
            case h_2 c hc =>
              have hwc := octetAt_wf hc
              split at h
              case isTrue hdot3 =>
                split at h
                case h_1 => exact absurd h (by simp)
                case h_2 d hd =>
                  have hwd := octetAt_wf hd
                  split at h
                  case isTrue hslash =>
                    simp only [] at h
                    split at h
                    case isTrue hm2 =>
                      injection h with h
                      subst h
                      rw [Bool.and_eq_true] at hm2
                      have h2 : 2 ≤ runLen Char.isDigit l (d + 1) := of_decide_eq_true hm2.1
                      have hlt : d + 1 < l.length := runLen_pos_lt Char.isDigit (by omega)
                      have := runLen_le Char.isDigit l (d + 1) (by omega)
                      omega
                    case isFalse =>
                      split at h
                      case isTrue hm1 =>
                        injection h with h
                        subst h
                        rw [Bool.and_eq_true] at hm1
                        have h1 : 1 ≤ runLen Char.isDigit l (d + 1) := of_decide_eq_true hm1.1
                        have hlt : d + 1 < l.length := runLen_pos_lt Char.isDigit (by omega)
                        omega
                      case isFalse => injection h with h; subst h; omega
                  case isFalse =>
                    split at h
                    case isTrue => injection h with h; subst h; omega
                    case isFalse => exact absurd h (by simp)
              case isFalse => exact absurd h (by simp)
          case isFalse => exact absurd h (by simp)
      case isFalse => exact absurd h (by simp)
  case isFalse => exact absurd h (by simp)

lemma colonHex2_lt {l : List Char} {i : Nat} (h : colonHex2 l i = true) :
    i + 2 < l.length := by
  unfold colonHex2 at h
  rw [Bool.and_eq_true] at h
  exact charAt_lt h.2

lemma matchMacColonAt_wf {l : List Char} {i e : Nat} (h : matchMacColonAt l i = some e) :
    i < e ∧ e ≤ l.length := by
  unfold matchMacColonAt at h
  split at h
  case isTrue hcond =>
    injection h with h
    subst h
    simp only [Bool.and_eq_true] at hcond
    have := colonHex2_lt hcond.1.2
    omega
  case isFalse => exact absurd h (by simp)

lemma hex4At_lt {l : List Char} {i : Nat} (h : hex4At l i = true) :
    i + 3 < l.length := by
  unfold hex4At at h
  rw [Bool.and_eq_true] at h
  exact charAt_lt h.2

lemma matchMacDotAt_wf {l : List Char} {i e : Nat} (h : matchMacDotAt l i = some e) :
    i < e ∧ e ≤ l.length := by
  unfold matchMacDotAt at h
  split at h
  case isTrue hcond =>
    injection h with h
    subst h
    simp only [Bool.and_eq_true] at hcond
    have := hex4At_lt hcond.1.2
    omega
  case isFalse => exact absurd h (by simp)

lemma matchPosAt_wf {l : List Char} {i e : Nat} (h : matchPosAt l i = some e) :
    i < e ∧ e ≤ l.length := by
  unfold matchPosAt at h
  split at h
  · exact kwAlt_wf true l i _ (by decide) h
  · exact absurd h (by simp)

lemma matchNegAt_wf {l : List Char} {i e : Nat} (h : matchNegAt l i = some e) :
    i < e ∧ e ≤ l.length := by
  unfold matchNegAt at h
  split at h
  · exact kwAlt_wf true l i _ (by decide) h
  · exact absurd h (by simp)

lemma matchVniAt_wf {l : List Char} {i e : Nat} (h : matchVniAt l i = some e) :
    i < e ∧ e ≤ l.length := by
  unfold matchVniAt at h
  split at h
  · exact kwAlt_wf false l i _ (by decide) h
  · exact absurd h (by simp)

lemma shrinkStar_wf {l : List Char} {base : Nat} :
    ∀ {k e : Nat}, shrinkStar l base k = some e → base ≤ e ∧ e ≤ base + k := by
  intro k
  induction k with
  | zero =>
    intro e h
    unfold shrinkStar at h
    split at h
    · injection h with h; omega
    · exact absurd h (by simp)
  | succ k ih =>
    intro e h
    unfold shrinkStar at h
    split at h
    · injection h with h; omega
    · have := ih h; omega

lemma ifaceTail_wf {l : List Char} {p e : Nat} (h : ifaceTail l p = some e) :
    p < e ∧ e ≤ l.length := by
  unfold ifaceTail at h
  simp only [] at h
  split at h
  case isTrue hdig =>
    have hp : p < l.length := charAt_lt hdig
    have hr := runLen_le (fun c => isWordC c || c = '/' || c = '.' || c = '-') l (p + 1) (by omega)
    have := shrinkStar_wf h
    omega
  case isFalse => exact absurd h (by simp)

lemma ifaceAlts_wf {l : List Char} {i : Nat} :
    ∀ {ws : List (List Char)} {e : Nat}, ifaceAlts l i ws = some e → i < e ∧ e ≤ l.length := by
  intro ws
  induction ws with
  | nil => intro e h; simp [ifaceAlts] at h
  | cons w ws ih =>
    intro e h
    unfold ifaceAlts at h
    split at h
    · split at h
      case h_1 k hk =>
        injection h with h
        subst h
        have := ifaceTail_wf hk
        omega
      case h_2 => exact ih h
    · exact ih h

lemma matchIfaceAt_wf {l : List Char} {i e : Nat} (h : matchIfaceAt l i = some e) :
    i < e ∧ e ≤ l.length := by
  unfold matchIfaceAt at h
  split at h
  · exact ifaceAlts_wf h
  · exact absurd h (by simp)

lemma versaAlts_wf {l : List Char} {i : Nat} :
    ∀ {ws : List (List Char)} {e : Nat}, versaAlts l i ws = some e → i < e ∧ e ≤ l.length := by
  intro ws
  induction ws with
  | nil => intro e h; simp [versaAlts] at h
  | cons w ws ih =>
    intro e h
    unfold versaAlts at h
    split at h
    · split at h
      case h_1 k hk =>
        injection h with h
        subst h
        have := ifaceTail_wf hk
        omega
      case h_2 => exact ih h
    · exact ih h

lemma matchVersaAt_wf {l : List Char} {i e : Nat} (h : matchVersaAt l i = some e) :
    i < e ∧ e ≤ l.length := by
  unfold matchVersaAt at h
  split at h
  · exact versaAlts_wf h
  · exact absurd h (by simp)

lemma compound2_wf {l : List Char} {i e : Nat} {head : List Char} {tails : List (List Char)}
    (htails : ∀ w ∈ tails, w ≠ []) (h : compound2 l i head tails = some e) :
    i < e ∧ e ≤ l.length := by
  unfold compound2 at h
  simp only [] at h
  split at h
  case isTrue hlit =>
    split at h
    case isTrue hs =>
      have := kwAlt_wf false l (i + head.length + runLen isSpaceC l (i + head.length)) tails htails h
      omega
    case isFalse => exact absurd h (by simp)
  case isFalse => exact absurd h (by simp)

lemma matchKw1_wf {l : List Char} {s e : Nat} (h : matchKw1 l = some (s, e)) :
    s < e ∧ e ≤ l.length := by
  unfold matchKw1 at h
  simp only [] at h
  split at h
  case h_1 k hk =>
    injection h with h
    injection h with h1 h2
    subst h1
    subst h2
    exact compound2_wf (by decide) hk
  case h_2 =>
    split at h
    case h_1 k hk =>
      injection h with h
      injection h with h1 h2
      subst h1
      subst h2
      exact kwAlt_wf false l _ _ (by decide) hk
    case h_2 =>
      split at h
      case h_1 k hk =>
        injection h with h
        injection h with h1 h2
        subst h1
        subst h2
        exact compound2_wf (by decide) hk
      case h_2 =>
        split at h
        case h_1 k hk =>
          injection h with h
          injection h with h1 h2
          subst h1
          subst h2
          exact kwAlt_wf false l _ _ (by decide) hk
        case h_2 =>
          split at h
          case h_1 k hk =>
            injection h with h
            injection h with h1 h2
            subst h1
            subst h2
            exact compound2_wf (by decide) hk
          case h_2 => exact absurd h (by simp)

lemma matchKw2_wf {l : List Char} {s e : Nat} (h : matchKw2 l = some (s, e)) :
    s < e ∧ e ≤ l.length := by
  unfold matchKw2 at h
  simp only [] at h
  split at h
  case h_1 k hk =>
    injection h with h
    injection h with h1 h2
    subst h1
    subst h2
    exact compound2_wf (by decide) hk
  case h_2 =>
    split at h
    case h_1 k hk =>
      injection h with h
      injection h with h1 h2
      subst h1
      subst h2
      exact kwAlt_wf false l _ _ (by decide) hk
    case h_2 => exact absurd h (by simp)

lemma matchComment_wf {l : List Char} {s e : Nat} (h : matchComment l = some (s, e)) :
    s < e ∧ e ≤ l.length := by
  unfold matchComment at h
  simp only [] at h
  split at h
  case isTrue hhash =>
    have hW : l[runLen isSpaceC l 0]? = some '#' := hhash
    have hwlt := getElem?_lt hW
    split at h
    case isTrue =>
      injection h with h
      injection h with h1 h2
      subst h1
      subst h2
      omega
    case isFalse =>
      split at h
      case isTrue hc2 =>
        injection h with h
        injection h with h1 h2
        subst h1
        subst h2
        rw [Bool.and_eq_true] at hc2
        have hnl : l[l.length - 1]? = some '\n' := of_decide_eq_true hc2.1
        have hne : runLen isSpaceC l 0 ≠ l.length - 1 := by
          intro heq
          rw [heq, hnl] at hW
          simp at hW
        omega
      case isFalse => exact absurd h (by simp)
  case isFalse => exact absurd h (by simp)

-- ── Well-formedness through the scan and the collected candidate list ──

lemma finditerGo_wf {m : List Char → Nat → Option Nat} {l : List Char}
    (hm : ∀ {i e : Nat}, m l i = some e → i < e ∧ e ≤ l.length) :
    ∀ (fuel pos : Nat), ∀ se ∈ finditerGo m l fuel pos, se.1 < se.2 ∧ se.2 ≤ l.length := by
  intro fuel
  induction fuel with
  | zero => intro pos se h; simp [finditerGo] at h
  | succ f ih =>
    intro pos se h
    unfold finditerGo at h
    split at h
    · split at h
      case h_1 k hk =>
        rcases List.mem_cons.mp h with rfl | hmem
        · exact hm hk
        · exact ih _ _ hmem
      case h_2 => exact ih _ _ h
    · simp at h

lemma finditer_wf {m : List Char → Nat → Option Nat} {l : List Char}
    (hm : ∀ {i e : Nat}, m l i = some e → i < e ∧ e ≤ l.length) :
    ∀ se ∈ finditer m l, se.1 < se.2 ∧ se.2 ≤ l.length :=
  fun se h => finditerGo_wf hm _ _ se h

lemma spansToCands_wf {sp : List (Nat × Nat)} {col : RGB} {b : Bool}
    (hsp : ∀ se ∈ sp, se.1 < se.2 ∧ se.2 ≤ (l : List Char).length) :
    ∀ c ∈ spansToCands sp col b, c.s < c.e ∧ c.e ≤ l.length := by
  intro c hc
  unfold spansToCands at hc
  obtain ⟨se, hse, rfl⟩ := List.mem_map.mp hc
  exact hsp se hse

/-- Every candidate collected by the matches loop is a nonempty span inside
the line. -/
lemma allMatches_wf (l : List Char) :
    ∀ c ∈ allMatches l, c.s < c.e ∧ c.e ≤ l.length := by
  intro c hc
  unfold allMatches at hc
  simp only [List.mem_append] at hc
  rcases hc with ((((((((((h | h) | h) | h) | h) | h) | h) | h) | h) | h) | h) | h
  · refine spansToCands_wf ?_ c h
    intro se hse
    unfold optToList at hse
    split at hse
    · simp at hse
    · rename_i p hp
      rcases List.mem_singleton.mp hse with rfl
      exact matchComment_wf hp
  · exact spansToCands_wf (finditer_wf (fun h => matchPromptAt_wf h)) c h
  · exact spansToCands_wf (finditer_wf (fun h => matchIPv4At_wf h)) c h
  · exact spansToCands_wf (finditer_wf (fun h => matchMacColonAt_wf h)) c h
  · exact spansToCands_wf (finditer_wf (fun h => matchMacDotAt_wf h)) c h
  · exact spansToCands_wf (finditer_wf (fun h => matchPosAt_wf h)) c h
  · exact spansToCands_wf (finditer_wf (fun h => matchNegAt_wf h)) c h
  · exact spansToCands_wf (finditer_wf (fun h => matchVniAt_wf h)) c h
  · exact spansToCands_wf (finditer_wf (fun h => matchIfaceAt_wf h)) c h
  · exact spansToCands_wf (finditer_wf (fun h => matchVersaAt_wf h)) c h
  · refine spansToCands_wf ?_ c h
    intro se hse
    unfold optToList at hse
    split at hse
    · simp at hse
    · rename_i p hp
      rcases List.mem_singleton.mp hse with rfl
      exact matchKw1_wf hp
  · refine spansToCands_wf ?_ c h
    intro se hse
    unfold optToList at hse
    split at hse
    · simp at hse
    · rename_i p hp
      rcases List.mem_singleton.mp hse with rfl
      exact matchKw2_wf hp

-- ── The sort: membership and sortedness ──

lemma mem_insertCand {x c : Cand} : ∀ {ys : List Cand}, c ∈ insertCand x ys ↔ c = x ∨ c ∈ ys := by
  intro ys
  induction ys with
  | nil => simp [insertCand]
  | cons y ys ih =>
    unfold insertCand
    split
    · simp [List.mem_cons]
    · simp only [List.mem_cons, ih]
      tauto

lemma mem_sortCands {c : Cand} : ∀ {xs : List Cand}, c ∈ sortCands xs ↔ c ∈ xs := by
  intro xs
  induction xs with
  | nil => simp [sortCands]
  | cons x xs ih =>
    unfold sortCands
    rw [mem_insertCand]
    simp only [List.mem_cons, ih]

/-- Sortedness by start offset. -/
def SortedLE (xs : List Cand) : Prop := List.Pairwise (fun a b => a.s ≤ b.s) xs

lemma sorted_insertCand {x : Cand} : ∀ {ys : List Cand}, SortedLE ys → SortedLE (insertCand x ys) := by
  intro ys
  induction ys with
  | nil => intro _; simp [insertCand, SortedLE]
  | cons y ys ih =>
    intro hs
    obtain ⟨hy, hys⟩ := List.pairwise_cons.mp hs
    unfold insertCand
    split
    case isTrue hxy =>
      refine List.pairwise_cons.mpr ⟨?_, hs⟩
      intro z hz
      rcases List.mem_cons.mp hz with rfl | hz
      · exact hxy
      · exact le_trans hxy (hy z hz)
    case isFalse hxy =>
      refine List.pairwise_cons.mpr ⟨?_, ih hys⟩
      intro z hz
      rcases mem_insertCand.mp hz with rfl | hz
      · omega
      · exact hy z hz

lemma sorted_sortCands : ∀ (xs : List Cand), SortedLE (sortCands xs) := by
  intro xs
  induction xs with
  | nil => simp [sortCands, SortedLE]
  | cons x xs ih => exact sorted_insertCand ih

-- ── The overlap removal scan ──

/-- The chain invariant of a filtered candidate list: each span starts at or
after the running position and hands its end to the rest. -/
def chainOK : Nat → List Cand → Prop
  | _, [] => True
  | pos, c :: cs => pos ≤ c.s ∧ chainOK c.e cs

lemma chainOK_filterOverlaps : ∀ (cs : List Cand) (le0 : Nat), chainOK le0 (filterOverlaps cs le0) := by
  intro cs
  induction cs with
  | nil => intro le0; simp [filterOverlaps, chainOK]
  | cons c cs ih =>
    intro le0
    unfold filterOverlaps
    split
    case isTrue hge => exact ⟨by omega, ih c.e⟩
    case isFalse => exact ih le0

lemma filterOverlaps_sublist : ∀ (cs : List Cand) (le0 : Nat), (filterOverlaps cs le0).Sublist cs := by
  intro cs
  induction cs with
  | nil => intro le0; simp [filterOverlaps]
  | cons c cs ih =>
    intro le0
    unfold filterOverlaps
    split
    · exact (ih c.e).cons₂ c
    · exact (ih le0).cons c

/-- Why a candidate is missing from the filtered list: it started before the
running position, or it overlaps a kept candidate that starts no later. -/
lemma filterOverlaps_drop_reason :
    ∀ (cs : List Cand) (le0 : Nat), SortedLE cs →
      ∀ c ∈ cs, c ∈ filterOverlaps cs le0 ∨ c.s < le0 ∨
        ∃ k, k ∈ filterOverlaps cs le0 ∧ k.s ≤ c.s ∧ c.s < k.e := by
  intro cs
  induction cs with
  | nil => intro le0 _ c hc; simp at hc
  | cons c0 cs ih =>
    intro le0 hs c hc
    obtain ⟨h0, hps⟩ := List.pairwise_cons.mp hs
    unfold filterOverlaps
    split
    case isTrue hge =>
      rcases List.mem_cons.mp hc with rfl | hc
      · exact Or.inl (List.mem_cons_self ..)
      · rcases ih c0.e hps c hc with hin | hlt | ⟨k, hk, hks, hke⟩
        · exact Or.inl (List.mem_cons_of_mem _ hin)
        · exact Or.inr (Or.inr ⟨c0, List.mem_cons_self .., h0 c hc, hlt⟩)
        · exact Or.inr (Or.inr ⟨k, List.mem_cons_of_mem _ hk, hks, hke⟩)
    case isFalse hlt =>
      rcases List.mem_cons.mp hc with rfl | hc
      · exact Or.inr (Or.inl (by omega))
      · exact ih le0 hps c hc

-- ── The segment build loop ──

lemma slice_append {l : List Char} {a b c : Nat} (hab : a ≤ b) (hbc : b ≤ c) :
    slice l a b ++ slice l b c = slice l a c := by
  unfold slice
  have hd : l.drop b = (l.drop a).drop (b - a) := by
    rw [List.drop_drop]
    congr 1
    omega
  rw [hd, ← List.take_add]
  congr 1
  omega

lemma slice_drop {l : List Char} {a b : Nat} (hab : a ≤ b) :
    slice l a b ++ l.drop b = l.drop a := by
  unfold slice
  have hd : l.drop b = (l.drop a).drop (b - a) := by
    rw [List.drop_drop]
    congr 1
    omega
  rw [hd, List.take_append_drop]

lemma slice_to_end (l : List Char) (a : Nat) : slice l a l.length = l.drop a := by
  unfold slice
  rw [← List.length_drop]
  exact List.take_length _

lemma slice_length {l : List Char} {a b : Nat} :
    (slice l a b).length = min (b - a) (l.length - a) := by
  unfold slice
  rw [List.length_take, List.length_drop]

/-- Texts of a segment list, concatenated. -/
def concatTexts (segs : List Seg) : List Char := (segs.map Seg.text).flatten

lemma concatTexts_cons (s : Seg) (segs : List Seg) :
    concatTexts (s :: segs) = s.text ++ concatTexts segs := by
  simp [concatTexts]

/-- The build loop reproduces the line from the running position onward,
provided the spans are ordered and each span is ascending. -/
lemma concat_buildSegs (l : List Char) :
    ∀ (cs : List Cand) (pos : Nat), chainOK pos cs → (∀ c ∈ cs, c.s ≤ c.e) →
      concatTexts (buildSegs l cs pos) = l.drop pos := by
  intro cs
  induction cs with
  | nil =>
    intro pos _ _
    unfold buildSegs
    split
    case isTrue hlt => simp [concatTexts, slice_to_end]
    case isFalse hge =>
      rw [List.drop_eq_nil_of_le (by omega)]
      simp [concatTexts]
  | cons c cs ih =>
    intro pos hchain hwf
    obtain ⟨hpos, hrest⟩ := hchain
    have hse : c.s ≤ c.e := hwf c (List.mem_cons_self ..)
    have hwfr : ∀ x ∈ cs, x.s ≤ x.e := fun x hx => hwf x (List.mem_cons_of_mem _ hx)
    unfold buildSegs
    split
    case isTrue hgt =>
      rw [concatTexts_cons, concatTexts_cons, ih c.e hrest hwfr]
      simp only []
      rw [← List.append_assoc, slice_append hpos hse, slice_drop (le_trans hpos hse)]
    case isFalse hle =>
      have hps : pos = c.s := by omega
      rw [concatTexts_cons, ih c.e hrest hwfr]
      simp only []
      rw [slice_drop hse, hps]

/-- No segment produced by the build loop is empty, provided the spans are
ordered, nonempty, and inside the line. -/
lemma buildSegs_nonempty (l : List Char) :
    ∀ (cs : List Cand) (pos : Nat), chainOK pos cs →
      (∀ c ∈ cs, c.s < c.e ∧ c.e ≤ l.length) →
      ∀ seg ∈ buildSegs l cs pos, seg.text ≠ [] := by
  intro cs
  induction cs with
  | nil =>
    intro pos _ _ seg hseg
    unfold buildSegs at hseg
    split at hseg
    case isTrue hlt =>
      rcases List.mem_singleton.mp hseg with rfl
      have hlen : (slice l pos l.length).length = l.length - pos := by
        rw [slice_length]
        omega
      exact List.length_pos.mp (show 0 < (slice l pos l.length).length by rw [hlen]; omega)
    case isFalse => simp at hseg
  | cons c cs ih =>
    intro pos hchain hwf seg hseg
    obtain ⟨hpos, hrest⟩ := hchain
    obtain ⟨hce, hcl⟩ := hwf c (List.mem_cons_self ..)
    have hwfr : ∀ x ∈ cs, x.s < x.e ∧ x.e ≤ l.length :=
      fun x hx => hwf x (List.mem_cons_of_mem _ hx)
    have hmid : (slice l c.s c.e).length = c.e - c.s := by
      rw [slice_length]
      omega
    unfold buildSegs at hseg
    split at hseg
    case isTrue hgt =>
      rcases List.mem_cons.mp hseg with rfl | hseg
      · have hgap : (slice l pos c.s).length = c.s - pos := by
          rw [slice_length]
          omega
        exact List.length_pos.mp (show 0 < (slice l pos c.s).length by rw [hgap]; omega)
      rcases List.mem_cons.mp hseg with rfl | hseg
      · exact List.length_pos.mp (show 0 < (slice l c.s c.e).length by rw [hmid]; omega)
      · exact ih c.e hrest hwfr seg hseg
    case isFalse hle =>
      rcases List.mem_cons.mp hseg with rfl | hseg
      · exact List.length_pos.mp (show 0 < (slice l c.s c.e).length by rw [hmid]; omega)
      · exact ih c.e hrest hwfr seg hseg

-- ── Assembled facts about `colorize_line` ──

/-- Concatenating the segment texts reproduces the input line. -/
lemma colorize_concat (l : List Char) : concatTexts (colorize_line l) = l := by
  unfold colorize_line
  split
  · simp [concatTexts]
  · simp only []
    have hwf : ∀ c ∈ filterOverlaps (sortCands (allMatches l)) 0, c.s ≤ c.e := by
      intro c hc
      have hmem : c ∈ allMatches l :=
        mem_sortCands.mp ((filterOverlaps_sublist _ _).subset hc)
      exact le_of_lt (allMatches_wf l c hmem).1
    have hmain := concat_buildSegs l _ 0 (chainOK_filterOverlaps _ 0) hwf
    split
    case isTrue _ => simp [concatTexts]
    case isFalse => simpa using hmain

/-- On a nonempty line no produced segment is empty. -/
lemma colorize_nonempty (l : List Char) (hl : l ≠ []) :
    ∀ seg ∈ colorize_line l, seg.text ≠ [] := by
  intro seg hseg
  unfold colorize_line at hseg
  split at hseg
  · rcases List.mem_singleton.mp hseg with rfl
    simpa using hl
  · simp only [] at hseg
    split at hseg
    case isTrue => rcases List.mem_singleton.mp hseg with rfl; simpa using hl
    case isFalse =>
      have hwf : ∀ c ∈ filterOverlaps (sortCands (allMatches l)) 0,
          c.s < c.e ∧ c.e ≤ l.length :=
        fun c hc => allMatches_wf l c (mem_sortCands.mp ((filterOverlaps_sublist _ _).subset hc))
      exact buildSegs_nonempty l _ 0 (chainOK_filterOverlaps _ 0) hwf seg hseg

-- ── The claims ──

/-- C1: for every input line, concatenating the texts of the segments
returned by colorize_line, in order, reproduces the original line exactly;
the only exception is the substitution of a single non-breaking space for an
empty or whitespace-only line, performed by add_colored_runs before
classification, whose segment texts concatenate to exactly that substituted
display line. -/
theorem claim_C1_reconstruction (l : List Char) :
    concatTexts (colorize_line l) = l ∧
      concatTexts (add_colored_runs_segs l) = display_line l :=
  ⟨colorize_concat l, colorize_concat (display_line l)⟩

/-- C2: the segments of colorize_line cover the line contiguously without
overlap (their texts concatenate to the whole line), no segment is empty
unless the line itself is empty, and the fully-empty line yields the single
placeholder segment. -/
theorem claim_C2_coverage (l : List Char) :
    concatTexts (colorize_line l) = l ∧
      ((colorize_line l).all fun seg => l.isEmpty || !seg.text.isEmpty) = true ∧
      colorize_line [] = [⟨[], CLR_DEFAULT, false⟩] := by
  refine ⟨colorize_concat l, ?_, by decide⟩
  rw [List.all_eq_true]
  intro seg hseg
  rcases eq_or_ne l [] with rfl | hl
  · simp
  · have hne := colorize_nonempty l hl seg hseg
    simp [Bool.or_eq_true, List.isEmpty_iff, hne]

/-- C3: a line whose whitespace-trimmed form starts with a comment marker is
returned as exactly one segment, the whole untrimmed line, in the comment
color and not bold, with no pattern matching performed. -/
theorem claim_C3_comment_short_circuit (l : List Char) (h : isCommentLine l = true) :
    colorize_line l = [⟨l, CLR_COMMENT, false⟩] := by
  unfold colorize_line
  simp [h]

theorem claim_C3_witness :
    colorize_line ("# comment with 1.1.1.1 inside".toList) =
      [⟨"# comment with 1.1.1.1 inside".toList, CLR_COMMENT, false⟩] :=
  claim_C3_comment_short_circuit _ (by decide)

/-- C4 counterexample: on this line the IPv4 pattern (priority 3) produces
the candidate span from 5 to 12 and the later interface pattern (priority 9)
the overlapping span from 0 to 12; the interface span starts earlier, wins,
and the IP span is dropped, so the earlier-priority pattern loses the
overlap. -/
theorem claim_C4_counterexample :
    (⟨5, 12, CLR_IP, false⟩ : Cand) ∈ allMatches ("nve1-2.2.2.2".toList) ∧
    (⟨0, 12, CLR_IFACE, false⟩ : Cand) ∈ allMatches ("nve1-2.2.2.2".toList) ∧
    colorize_line ("nve1-2.2.2.2".toList) = [⟨"nve1-2.2.2.2".toList, CLR_IFACE, false⟩] ∧
    ((colorize_line ("nve1-2.2.2.2".toList)).all fun seg => !(seg.color = CLR_IP)) = true :=
  ⟨by decide, by decide, by decide, by decide⟩

/-- C4 amended: overlaps are resolved in favor of the candidate encountered
earlier in the start-sorted candidate list: the kept spans are a sublist of
the sorted candidates (never truncated), they are chained without overlap,
and every dropped candidate overlaps some kept candidate whose start is at
or before its own. -/
theorem claim_C4_amended (l : List Char) :
    (filterOverlaps (sortCands (allMatches l)) 0).Sublist (sortCands (allMatches l)) ∧
    chainOK 0 (filterOverlaps (sortCands (allMatches l)) 0) ∧
    ∀ c ∈ sortCands (allMatches l),
      c ∈ filterOverlaps (sortCands (allMatches l)) 0 ∨
        ∃ k, k ∈ filterOverlaps (sortCands (allMatches l)) 0 ∧ k.s ≤ c.s ∧ c.s < k.e := by
  refine ⟨filterOverlaps_sublist _ _, chainOK_filterOverlaps _ _, ?_⟩
  intro c hc
  rcases filterOverlaps_drop_reason _ 0 (sorted_sortCands _) c hc with h | h | h
  · exact Or.inl h
  · omega
  · exact Or.inr h

theorem claim_C4_amended_witness :
    ∃ k, k ∈ filterOverlaps (sortCands (allMatches ("nve1-2.2.2.2".toList))) 0 ∧
      k.s ≤ 5 ∧ 5 < k.e := by
  have h := (claim_C4_amended ("nve1-2.2.2.2".toList)).2.2
    (⟨5, 12, CLR_IP, false⟩ : Cand) (by decide)
  rcases h with h | h
  · exact absurd h (by decide)
  · exact h

/-- C5: the status keywords classify case-insensitively as positive (green,
bold) and negative (red, bold), while the other patterns match only their
literal character classes: an uppercase interface name is left default, the
exact-case interface name is colored, and a mixed-case MAC address matches
because its hex class lists both cases literally. -/
theorem claim_C5_case_sensitivity :
    colorize_line ("UP".toList) = [⟨"UP".toList, CLR_GREEN, true⟩] ∧
    colorize_line ("up".toList) = [⟨"up".toList, CLR_GREEN, true⟩] ∧
    colorize_line ("Up".toList) = [⟨"Up".toList, CLR_GREEN, true⟩] ∧
    colorize_line ("FULL".toList) = [⟨"FULL".toList, CLR_GREEN, true⟩] ∧
    colorize_line ("DOWN".toList) = [⟨"DOWN".toList, CLR_RED, true⟩] ∧
    colorize_line ("down".toList) = [⟨"down".toList, CLR_RED, true⟩] ∧
    colorize_line ("GI1".toList) = [⟨"GI1".toList, CLR_DEFAULT, false⟩] ∧
    colorize_line ("Gi1".toList) = [⟨"Gi1".toList, CLR_IFACE, false⟩] ∧
    colorize_line ("AA:BB:cc:00:24:00".toList) =
      [⟨"AA:BB:cc:00:24:00".toList, CLR_MAC, false⟩] :=
  ⟨by decide, by decide, by decide, by decide, by decide, by decide, by decide,
   by decide, by decide⟩

/-- C6: the numeric highlighting is the fixed allow-list 401151, 401152,
401153, 50101 and not a general numeric rule: in the MAC line the token 1151
stays default-colored while the full allow-list members are colored. -/
theorem claim_C6_vni_allowlist :
    colorize_line ("aa:bb:cc:00:24:00 CA 1151".toList) =
      [⟨"aa:bb:cc:00:24:00".toList, CLR_MAC, false⟩,
       ⟨" CA 1151".toList, CLR_DEFAULT, false⟩] ∧
    colorize_line ("1151".toList) = [⟨"1151".toList, CLR_DEFAULT, false⟩] ∧
    colorize_line ("401151".toList) = [⟨"401151".toList, CLR_VNI, false⟩] ∧
    colorize_line ("50101".toList) = [⟨"50101".toList, CLR_VNI, false⟩] :=
  ⟨by decide, by decide, by decide, by decide⟩

/-- C7: the candidate span recorded for overlap resolution is the capturing
group range: for the anchored keyword patterns the group starts after the
leading whitespace although the match starts at offset 0, and on a concrete
line that whitespace stays default-colored outside the keyword segment. -/
theorem claim_C7_group_span :
    (∀ (l : List Char) (s e : Nat), matchKw1 l = some (s, e) → s = runLen isSpaceC l 0) ∧
    (∀ (l : List Char) (s e : Nat), matchKw2 l = some (s, e) → s = runLen isSpaceC l 0) ∧
    matchKw1 ("  interface Gi1/0/3 up".toList) = some (2, 11) ∧
    colorize_line ("  interface Gi1/0/3 up".toList) =
      [⟨"  ".toList, CLR_DEFAULT, false⟩, ⟨"interface".toList, CLR_KEYWORD, true⟩,
       ⟨" ".toList, CLR_DEFAULT, false⟩, ⟨"Gi1/0/3".toList, CLR_IFACE, false⟩,
       ⟨" ".toList, CLR_DEFAULT, false⟩, ⟨"up".toList, CLR_GREEN, true⟩] := by
  refine ⟨?_, ?_, by decide, by decide⟩
  · intro l s e h
    unfold matchKw1 at h
    simp only [] at h
    split at h
    case h_1 k hk =>
      injection h with h
      injection h with h1 h2
      exact h1.symm
    case h_2 =>
      split at h
      case h_1 k hk =>
        injection h with h
        injection h with h1 h2
        exact h1.symm
      case h_2 =>
        split at h
        case h_1 k hk =>
          injection h with h
          injection h with h1 h2
          exact h1.symm
        case h_2 =>
          split at h
          case h_1 k hk =>
            injection h with h
            injection h with h1 h2
            exact h1.symm
          case h_2 =>
            split at h
            case h_1 k hk =>
              injection h with h
              injection h with h1 h2
              exact h1.symm
            case h_2 => exact absurd h (by simp)
  · intro l s e h
    unfold matchKw2 at h
    simp only [] at h
    split at h
    case h_1 k hk =>
      injection h with h
      injection h with h1 h2
      exact h1.symm
    case h_2 =>
      split at h
      case h_1 k hk =>
        injection h with h
        injection h with h1 h2
        exact h1.symm
      case h_2 => exact absurd h (by simp)

theorem claim_C7_witness :
    (2 : Nat) = runLen isSpaceC ("  interface Gi1/0/3 up".toList) 0 :=
  claim_C7_group_span.1 _ 2 11 (by decide)

/-- C8: colorize_line is a total function returning at least one segment on
every input; on pattern-free garbage it returns the single whole-line
default segment. -/
theorem claim_C8_totality (l : List Char) :
    0 < (colorize_line l).length ∧
      colorize_line ("\x01\x02".toList) = [⟨"\x01\x02".toList, CLR_DEFAULT, false⟩] := by
  refine ⟨?_, by decide⟩
  unfold colorize_line
  split
  · simp
  · simp only []
    split
    case isTrue => simp
    case isFalse hne =>
      simp only [List.isEmpty_iff] at hne
      exact List.length_pos.mpr hne

/-- C9: the save step tries the fixed candidates in order; a PermissionError
moves to the next candidate, the first success stops the loop so later
candidates are not attempted, and any other exception propagates. -/
theorem claim_C9_save_retry (save : String → SaveOutcome) (base : String) :
    candidatePaths base =
      [base ++ "_v3" ++ ".docx", base ++ "_v3a" ++ ".docx", base ++ "_v3b" ++ ".docx"] ∧
    (save (base ++ "_v3" ++ ".docx") = .ok →
      runSaveStep save base = .saved (base ++ "_v3" ++ ".docx") ∧
      saveAttempts save (candidatePaths base) = [base ++ "_v3" ++ ".docx"]) ∧
    (save (base ++ "_v3" ++ ".docx") = .permError → save (base ++ "_v3a" ++ ".docx") = .ok →
      runSaveStep save base = .saved (base ++ "_v3a" ++ ".docx") ∧
      saveAttempts save (candidatePaths base) =
        [base ++ "_v3" ++ ".docx", base ++ "_v3a" ++ ".docx"]) ∧
    (save (base ++ "_v3" ++ ".docx") = .otherError →
      runSaveStep save base = .aborted (base ++ "_v3" ++ ".docx")) ∧
    (save (base ++ "_v3" ++ ".docx") = .permError →
      save (base ++ "_v3a" ++ ".docx") = .otherError →
      runSaveStep save base = .aborted (base ++ "_v3a" ++ ".docx")) := by
  refine ⟨rfl, ?_, ?_, ?_, ?_⟩
  · intro h1
    exact ⟨by simp [runSaveStep, candidatePaths, saveLoop, h1],
           by simp [saveAttempts, candidatePaths, h1]⟩
  · intro h1 h2
    exact ⟨by simp [runSaveStep, candidatePaths, saveLoop, h1, h2],
           by simp [saveAttempts, candidatePaths, h1, h2]⟩
  · intro h1
    simp [runSaveStep, candidatePaths, saveLoop, h1]
  · intro h1 h2
    simp [runSaveStep, candidatePaths, saveLoop, h1, h2]

theorem claim_C9_witness :
    runSaveStep (fun _ => SaveOutcome.ok) "b" = RunResult.saved ("b" ++ "_v3" ++ ".docx") ∧
    saveAttempts (fun _ => SaveOutcome.ok) (candidatePaths "b") = ["b" ++ "_v3" ++ ".docx"] :=
  (claim_C9_save_retry (fun _ => SaveOutcome.ok) "b").2.1 rfl

/-- C10: when every candidate raises PermissionError the loop exhausts
silently, the run is not aborted, and the success message prints the last
candidate path, which is still bound to the loop variable. -/
theorem claim_C10_silent_exhaustion (save : String → SaveOutcome) (base : String)
    (h1 : save (base ++ "_v3" ++ ".docx") = .permError)
    (h2 : save (base ++ "_v3a" ++ ".docx") = .permError)
    (h3 : save (base ++ "_v3b" ++ ".docx") = .permError) :
    runSaveStep save base = .fellThrough (base ++ "_v3b" ++ ".docx") ∧
    printedPath (runSaveStep save base) = some (base ++ "_v3b" ++ ".docx") := by
  have hrun : runSaveStep save base = .fellThrough (base ++ "_v3b" ++ ".docx") := by
    simp [runSaveStep, candidatePaths, saveLoop, h1, h2, h3]
  exact ⟨hrun, by rw [hrun]; rfl⟩

theorem claim_C10_witness :
    runSaveStep (fun _ => SaveOutcome.permError) "b" =
      RunResult.fellThrough ("b" ++ "_v3b" ++ ".docx") ∧
    printedPath (runSaveStep (fun _ => SaveOutcome.permError) "b") =
      some ("b" ++ "_v3b" ++ ".docx") :=
  claim_C10_silent_exhaustion (fun _ => SaveOutcome.permError) "b" rfl rfl rfl

end ConvertToDocx
